import Mathlib

/-!
Verification of the jsonflag configuration package (`jsonflag.go`).

The development shallowly embeds the package's core logic:

* `goExpandChars` / `expandEnv` — the shell-style environment-reference
  expansion performed by the external `os.ExpandEnv` collaborator, transcribed
  from Go's `os.Expand` / `getShellName`;
* `scanConfig` — the raw-argument scan in `Parse` that determines the config
  path without invoking the flag primitive;
* `expandV` — the reflective traversal `expand`, including Go `reflect`
  addressability: `SetString` on a non-settable value (such as a map element
  obtained via `MapIndex`) aborts, modelled as `Except.error`;
* `envBindAll` — the environment binder `env` applied via `flag.VisitAll`;
* `parseJSONM` — the document loader `parseJSON` (file system, absolute-path
  resolution and the JSON decoder are external collaborators, passed in as
  functions);
* `ParseRun` / `ParseM` — the orchestrator `Parse`, with an event trace.

Go process state is passed explicitly: `St` carries the package-level `Path`
and the bound storage of every registered flag, keyed by flag name.
-/

namespace Jsonflag

/-- ASCII upper-casing of a flag name, as `strings.ToUpper` acts on the
lower-case ASCII flag names this package prescribes. -/
def goToUpper (s : String) : String := String.mk (s.data.map Char.toUpper)

/-- Model of `strings.HasPrefix(s, pre)`. -/
def goHasPre (s pre : String) : Bool := pre.data.isPrefixOf s.data

/-- Model of `strings.TrimPrefix(s, pre)`. -/
def goTrimPre (pre s : String) : String :=
  if goHasPre s pre then String.mk (s.data.drop pre.data.length) else s

/-- Go `os.Expand`: is the character one of the shell special variables
(`isShellSpecialVar`)? -/
def isShellSpecialVar (c : Char) : Bool :=
  c = '*' || c = '#' || c = '$' || c = '@' || c = '!' || c = '?' || c = '-' ||
    ('0' ≤ c && c ≤ '9')

/-- Go `os.Expand`: alphanumeric or underscore (`isAlphaNum`). -/
def isAlphaNum (c : Char) : Bool :=
  c = '_' || ('0' ≤ c && c ≤ '9') || ('a' ≤ c && c ≤ 'z') || ('A' ≤ c && c ≤ 'Z')

/-- Scan for a closing brace: given the characters after `${`, return the name
characters before the first `}` and its index, or `none` if unclosed. -/
def braceScan : List Char → Option (List Char × Nat)
  | [] => none
  | c :: rest =>
    if c = '}' then some ([], 0)
    else (braceScan rest).map (fun x => (c :: x.1, x.2 + 1))

/-- Go `os.getShellName`: given the characters following a `$`, return the
referenced name and the number of characters consumed. -/
def getShellName (s : List Char) : List Char × Nat :=
  match s with
  | [] => ([], 0)
  | c :: rest =>
    if c = '{' then
      if 1 < rest.length ∧ isShellSpecialVar (rest.getD 0 ' ') ∧ rest.getD 1 ' ' = '}' then
        ([rest.getD 0 ' '], 3)
      else
        match braceScan rest with
        | some x => if x.2 = 0 then ([], 2) else (x.1, x.2 + 2)
        | none => ([], 1)
    else if isShellSpecialVar c then ([c], 1)
    else (s.takeWhile isAlphaNum, (s.takeWhile isAlphaNum).length)

/-- Go `os.Expand` over a character list: substitute `$NAME` and `${NAME}`
references through the mapping `mp`.  The recursion consumes at least one
character per step but not always the head, so it is phrased with a
character-count fuel to stay structurally recursive (hence kernel-computable);
`goExpandFuel_congr` shows any fuel of at least the list length gives the same
result, so `goExpandChars` below is a faithful total rendering. -/
def goExpandFuel (mp : List Char → List Char) : Nat → List Char → List Char
  | 0, l => l
  | _ + 1, [] => []
  | fuel + 1, c :: rest =>
    if c = '$' ∧ rest ≠ [] then
      let nw := getShellName rest
      if nw.1 = [] ∧ 0 < nw.2 then goExpandFuel mp fuel (rest.drop nw.2)
      else if nw.1 = [] then c :: goExpandFuel mp fuel rest
      else mp nw.1 ++ goExpandFuel mp fuel (rest.drop nw.2)
    else c :: goExpandFuel mp fuel rest

/-- Any two fuels of at least the input length make `goExpandFuel` agree. -/
theorem goExpandFuel_congr (mp : List Char → List Char) :
    ∀ (f1 f2 : Nat) (l : List Char), l.length ≤ f1 → l.length ≤ f2 →
      goExpandFuel mp f1 l = goExpandFuel mp f2 l := by
  intro f1
  induction f1 with
  | zero =>
    intro f2 l h1 _
    have : l = [] := List.length_eq_zero.mp (Nat.le_zero.mp h1)
    subst this
    cases f2 <;> rfl
  | succ n ih =>
    intro f2 l h1 h2
    match l with
    | [] => cases f2 <;> rfl
    | c :: rest =>
      match f2 with
      | 0 => exact absurd h2 (by simp)
      | m + 1 =>
        have hr : rest.length ≤ n := by
          simp only [List.length_cons] at h1
          omega
        have hm : rest.length ≤ m := by
          simp only [List.length_cons] at h2
          omega
        have hd : ∀ k : Nat, (rest.drop k).length ≤ rest.length := by
          intro k
          simp [List.length_drop]
        simp only [goExpandFuel]
        by_cases hc : c = '$' ∧ rest ≠ []
        · simp only [if_pos hc]
          by_cases h3 : (getShellName rest).1 = [] ∧ 0 < (getShellName rest).2
          · simp only [if_pos h3]
            exact ih m _ (le_trans (hd _) hr) (le_trans (hd _) hm)
          · simp only [if_neg h3]
            by_cases h4 : (getShellName rest).1 = []
            · simp only [if_pos h4]
              rw [ih m rest hr hm]
            · simp only [if_neg h4]
              rw [ih m _ (le_trans (hd _) hr) (le_trans (hd _) hm)]
        · simp only [if_neg hc]
          rw [ih m rest hr hm]

/-- Go `os.Expand` over a character list, run with sufficient fuel. -/
def goExpandChars (mp : List Char → List Char) (l : List Char) : List Char :=
  goExpandFuel mp l.length l

/-- Model of `os.ExpandEnv s`: expansion against the live environment, where
`envf` models `os.Getenv` (total, returning `""` for unset variables). -/
def expandEnv (envf : String → String) (s : String) : String :=
  String.mk (goExpandChars (fun nm => (envf (String.mk nm)).data) s.data)

/-- The raw-argument scan at the top of `Parse`: walk the arguments after the
program name looking for `--config`/`-config` (followed by a non-dash value)
or `--config=`/`-config=`, returning the new path; `p` is the current value of
the package-level `Path`.  A successful match breaks the loop. -/
def scanConfig : List String → String → String
  | [], p => p
  | a :: rest, p =>
    if a = "--config" ∨ a = "-config" then
      match rest with
      | b :: _ => if goHasPre b "-" then scanConfig rest p else b
      | [] => p
    else if goHasPre a "--config=" then goTrimPre "--config=" a
    else if goHasPre a "-config=" then goTrimPre "-config=" a
    else scanConfig rest p

/-- Pair every argument with its successor (if any), for stating the
first-occurrence specification of the scan. -/
def withNext : List String → List (String × Option String)
  | [] => []
  | a :: rest => (a, rest.head?) :: withNext rest

/-- Specification twin of the scan, following the claim's words: the value an
argument contributes when it is an occurrence of the config option in one of
the four surface forms (`--config v`, `-config v`, `--config=v`, `-config=v`,
where for the space-separated forms the value must not begin with a dash). -/
def argMatch (a : String) (nxt : Option String) : Option String :=
  if a = "--config" ∨ a = "-config" then
    match nxt with
    | some b => if goHasPre b "-" then none else some b
    | none => none
  else if goHasPre a "--config=" then some (goTrimPre "--config=" a)
  else if goHasPre a "-config=" then some (goTrimPre "-config=" a)
  else none

/-- Specification twin: the value of the first occurrence of the config option
in any of the four forms, if one is present. -/
def configOccValue (args : List String) : Option String :=
  (withNext args).findSome? (fun x => argMatch x.1 x.2)

/-- Claim C6: the path resolver returns the value of the first occurrence of
the config option in any of the four forms (`--name value`, `-name value`,
`--name=value`, `-name=value`, the space-separated forms requiring a value not
beginning with a dash); the scan breaks at the first match, an occurrence with
no following value and no `=` form leaves the path unchanged, and if no
occurrence is present the path keeps its process-wide default `p`. -/
theorem scanConfig_first_occurrence (args : List String) (p : String) :
    scanConfig args p = (configOccValue args).getD p := by
  induction args with
  | nil => rfl
  | cons a rest ih =>
    by_cases h1 : a = "--config" ∨ a = "-config"
    · cases rest with
      | nil =>
        simp [scanConfig, configOccValue, withNext, argMatch, h1]
      | cons b t =>
        by_cases hb : goHasPre b "-" = true
        · have : scanConfig (a :: b :: t) p = scanConfig (b :: t) p := by
            simp [scanConfig, h1, hb]
          rw [this, ih]
          simp [configOccValue, withNext, argMatch, h1, hb]
        · simp [scanConfig, configOccValue, withNext, argMatch, h1, hb]
    · by_cases h2 : goHasPre a "--config=" = true
      · simp [scanConfig, configOccValue, withNext, argMatch, h1, h2]
      · by_cases h3 : goHasPre a "-config=" = true
        · simp [scanConfig, configOccValue, withNext, argMatch, h1, h2, h3]
        · have : scanConfig (a :: rest) p = scanConfig rest p := by
            simp [scanConfig, h1, h2, h3]
          rw [this, ih]
          simp [configOccValue, withNext, argMatch, h1, h2, h3]

/-!
The reflective traversal `expand`.  A Go `reflect.Value` is modelled by
`JValue`; whether `SetString` may be called on it (`CanSet`) is passed as a
flag `cs`.  Addressability follows Go `reflect`: the target of a pointer is
addressable, struct fields inherit the struct's addressability, slice elements
are always addressable (they live in the backing array), and map elements
obtained via `MapIndex` are never addressable.  `SetString` on a non-settable
string — which `expand` performs unconditionally on every string leaf — is a
runtime abort, modelled as `Except.error ()`.  Values of interface kind match
no case of the switch and are left untouched.
-/

mutual
inductive JValue : Type where
  | vstr (s : String)
  | vint (n : Int)
  | vbool (b : Bool)
  | pnil
  | ptr (v : JValue)
  | iface (v : JValue)
  | vstruct (fs : JList)
  | vslice (es : JList)
  | vmap (es : JEntries)
inductive JList : Type where
  | nil
  | cons (v : JValue) (tl : JList)
inductive JEntries : Type where
  | nil
  | cons (k : String) (v : JValue) (tl : JEntries)
end

mutual
/-- The traversal `expand(v reflect.Value)` from `jsonflag.go`, with the
environment `envf` supplying `os.ExpandEnv` and `cs` the `CanSet` status of
the visited value. -/
def expandV (envf : String → String) (cs : Bool) : JValue → Except Unit JValue
  | .pnil => .ok .pnil
  | .ptr v => (expandV envf true v).map .ptr
  | .iface v => .ok (.iface v)
  | .vstruct fs => (expandL envf cs fs).map .vstruct
  | .vslice es => (expandL envf true es).map .vslice
  | .vmap es => (expandE envf es).map .vmap
  | .vstr s => if cs then .ok (.vstr (expandEnv envf s)) else .error ()
  | .vint n => .ok (.vint n)
  | .vbool b => .ok (.vbool b)
/-- `expand` over the fields of a struct or the elements of a slice, in
order. -/
def expandL (envf : String → String) (cs : Bool) : JList → Except Unit JList
  | .nil => .ok .nil
  | .cons v tl =>
    match expandV envf cs v with
    | .error e => .error e
    | .ok v2 => (expandL envf cs tl).map (.cons v2)
/-- `expand` over the values of a map: every value is visited with
`CanSet = false`, since `MapIndex` yields unaddressable values; keys are never
visited. -/
def expandE (envf : String → String) : JEntries → Except Unit JEntries
  | .nil => .ok .nil
  | .cons k v tl =>
    match expandV envf false v with
    | .error e => .error e
    | .ok v2 => (expandE envf tl).map (.cons k v2)
end

mutual
/-- Tree-shaped values: built only from string, numeric and boolean leaves,
nil and non-nil pointers, structs and slices — no maps and no interface
wrappers. -/
def treeV : JValue → Bool
  | .vstr _ => true
  | .vint _ => true
  | .vbool _ => true
  | .pnil => true
  | .ptr v => treeV v
  | .iface _ => false
  | .vstruct fs => treeL fs
  | .vslice es => treeL es
  | .vmap _ => false
/-- Tree-shaped lists of values. -/
def treeL : JList → Bool
  | .nil => true
  | .cons v tl => treeV v && treeL tl
end

mutual
/-- Specification-side traversal: replace every string leaf by `g` applied to
it, leave every other leaf unchanged, recurse through pointers, structs and
slices. -/
def mapV (g : String → String) : JValue → JValue
  | .vstr s => .vstr (g s)
  | .ptr v => .ptr (mapV g v)
  | .vstruct fs => .vstruct (mapL g fs)
  | .vslice es => .vslice (mapL g es)
  | v => v
/-- `mapV` over a list of values. -/
def mapL (g : String → String) : JList → JList
  | .nil => .nil
  | .cons v tl => .cons (mapV g v) (mapL g tl)
end

mutual
/-- On tree-shaped settable values, `expand` succeeds and equals the
string-leaf map. -/
theorem expandV_tree (envf : String → String) (v : JValue) (h : treeV v = true) :
    expandV envf true v = Except.ok (mapV (expandEnv envf) v) := by
  match v with
  | .vstr s => simp [expandV, mapV]
  | .vint n => simp [expandV, mapV]
  | .vbool b => simp [expandV, mapV]
  | .pnil => simp [expandV, mapV]
  | .ptr v =>
    have hv : treeV v = true := by simpa [treeV] using h
    simp [expandV, mapV, Except.map, expandV_tree envf v hv]
  | .iface v => simp [treeV] at h
  | .vstruct fs =>
    have hf : treeL fs = true := by simpa [treeV] using h
    simp [expandV, mapV, Except.map, expandL_tree envf true fs hf]
  | .vslice es =>
    have he : treeL es = true := by simpa [treeV] using h
    simp [expandV, mapV, Except.map, expandL_tree envf true es he]
  | .vmap es => simp [treeV] at h
/-- On tree-shaped lists whose elements are settable, `expand` succeeds and
equals the string-leaf map; struct fields inherit settability and slice
elements are always settable, so only `cs = true` arises on tree shapes. -/
theorem expandL_tree (envf : String → String) (cs : Bool) (l : JList) (h : treeL l = true) :
    expandL envf true l = Except.ok (mapL (expandEnv envf) l) := by
  match l with
  | .nil => simp [expandL, mapL]
  | .cons v tl =>
    have hv : treeV v = true := by
      have := h
      simp [treeL, Bool.and_eq_true] at this
      exact this.1
    have ht : treeL tl = true := by
      have := h
      simp [treeL, Bool.and_eq_true] at this
      exact this.2
    simp [expandL, mapL, Except.map, expandV_tree envf v hv, expandL_tree envf cs tl ht]
end

/-- Claim C5: on every acyclic value built from records, sequences, optional
or pointer indirections and leaves, the expander replaces every string leaf at
every depth by its environment-expanded form and leaves every non-string leaf
unchanged (that is exactly `mapV (expandEnv envf)`), and it is a no-op on a
nil indirection regardless of settability. -/
theorem expand_tree_correct (envf : String → String) (v : JValue) (h : treeV v = true) :
    expandV envf true v = Except.ok (mapV (expandEnv envf) v) ∧
      ∀ cs : Bool, expandV envf cs JValue.pnil = Except.ok JValue.pnil := by
  refine ⟨expandV_tree envf v h, ?_⟩
  intro cs
  simp [expandV]

/-- Concrete nested value: a record containing a sequence of records
containing optional strings, as in the spec's testable property. -/
def nestedSample : JValue :=
  .vstruct (.cons
    (.vslice (.cons
      (.vstruct (.cons (.ptr (.vstr "$FLAG7")) (.cons (.vint 5) .nil)))
      (.cons (.vstruct (.cons .pnil (.cons (.vstr "plain") .nil))) .nil)))
    .nil)

/-- Concrete environment for the expansion examples. -/
def envSample : String → String := fun x => if x = "FLAG7" then "FLAG7VALUE" else ""

/-- Witness for claim C5 at the nested sample value. -/
theorem expand_tree_correct_witness :
    treeV nestedSample = true ∧
      expandV envSample true nestedSample =
        Except.ok (mapV (expandEnv envSample) nestedSample) :=
  ⟨by decide, (expand_tree_correct envSample nestedSample (by decide)).1⟩

/-- Claim C4 findings: a mapping whose values are settable strings makes the
expander abort — `expand` reaches the string leaf through `MapIndex`, whose
result is unaddressable, and the unconditional `SetString` write-back aborts —
while the same string in a record expands fine.  The claim's guarantee that
the traversal expands every string value of a mapping and completes without
failure does not hold on the code. -/
theorem expand_map_string_aborts :
    expandV envSample true
        (JValue.vstruct (.cons (.vmap (.cons "k" (.vstr "$FLAG7") .nil)) .nil)) =
      Except.error () ∧
      expandV envSample true (JValue.vstruct (.cons (.vstr "$FLAG7") .nil)) =
        Except.ok (JValue.vstruct (.cons (.vstr "FLAG7VALUE") .nil)) := by
  constructor
  · rfl
  · rfl

/-!
The flag registry and the `Parse` pipeline.  A registered flag's bound storage
is identified by its flag name; its Go type (the kind) is the constructor of
the stored `FlagValue`.  The reserved `config` flag registered in `init` binds
the package-level `Path` and is kept in the `path` component of the state.
The flag primitive, the JSON decoder, the file system and `filepath.Abs` are
external collaborators: the primitive's argument extraction is modelled by the
assignment list `cli`, the decoder's resolved writes by a `Doc`, the file
system by `fsys` (mapping a path to `none` when the file cannot be opened,
`some (.error ())` when it opens but does not decode, and `some (.ok d)` when
it decodes to `d`) and `filepath.Abs` by a total function `absf`.
-/

/-- The bound storage of one registered flag; the constructor is the flag's
declared Go type. -/
inductive FlagValue : Type where
  | s (v : String)
  | i (v : Int)
  | b (v : Bool)
deriving DecidableEq, Repr

/-- The declared kind of a flag. -/
inductive FlagKind : Type where
  | kstr
  | kint
  | kbool
deriving DecidableEq, Repr

/-- Kind of a stored value. -/
def kindOf : FlagValue → FlagKind
  | .s _ => .kstr
  | .i _ => .kint
  | .b _ => .kbool

/-- Decimal digit test. -/
def isDigitCh (c : Char) : Bool := '0' ≤ c && c ≤ '9'

/-- Value of a digit string. -/
def digitsToNat (ds : List Char) : Nat :=
  ds.foldl (fun acc d => 10 * acc + (d.toNat - 48)) 0

/-- Model of the external `strconv` collaborator used by the flag primitive
for integer flags, on optionally signed decimal numerals; what the claims need
from it is which strings fail to convert. -/
def parseIntGo (s : String) : Option Int :=
  match s.data with
  | [] => none
  | c :: rest =>
    let ds := if c = '-' ∨ c = '+' then rest else c :: rest
    if ds.isEmpty || !(ds.all isDigitCh) then none
    else if c = '-' then some (-(digitsToNat ds : Int))
    else some ((digitsToNat ds : Int))

/-- Model of `strconv.ParseBool`: exactly these strings convert. -/
def parseBoolGo (s : String) : Option Bool :=
  if s = "1" ∨ s = "t" ∨ s = "T" ∨ s = "TRUE" ∨ s = "true" ∨ s = "True" then some true
  else if s = "0" ∨ s = "f" ∨ s = "F" ∨ s = "FALSE" ∨ s = "false" ∨ s = "False" then some false
  else none

/-- Conversion of a textual value to a flag's kind: the `Set` method of the
flag primitive's `Value` for string, int and bool flags. -/
def parseAs : FlagKind → String → Option FlagValue
  | .kstr, v => some (.s v)
  | .kint, v => (parseIntGo v).map .i
  | .kbool, v => (parseBoolGo v).map .b

/-- Write a textual value into a stored value of the same flag. -/
def setValue (cur : FlagValue) (v : String) : Option FlagValue :=
  parseAs (kindOf cur) v

/-- First-match lookup of a flag's storage by name. -/
def lookupF (n : String) : List (String × FlagValue) → Option FlagValue
  | [] => none
  | e :: rest => if e.1 = n then some e.2 else lookupF n rest

/-- The names of the registered fields. -/
def keysOf (fl : List (String × FlagValue)) : List String := fl.map Prod.fst

/-- Process state: the package-level `Path` (storage of the reserved `config`
flag) and the storage of every registered configuration field. -/
structure St where
  path : String
  flags : List (String × FlagValue)
deriving DecidableEq, Repr

/-- `flag.Set` on a registered field: convert and overwrite the first entry
with the given name; `none` is the primitive's error (unknown flag or failed
conversion), which leaves storage unchanged. -/
def setField (n v : String) : List (String × FlagValue) → Option (List (String × FlagValue))
  | [] => none
  | e :: rest =>
    if e.1 = n then (setValue e.2 v).map (fun w => (e.1, w) :: rest)
    else (setField n v rest).map (fun r => e :: r)

/-- `flag.Set` over the whole registry: the reserved `config` flag binds the
path (a string flag, so conversion always succeeds); every other name goes to
the field storage. -/
def setFlag (n v : String) (st : St) : Option St :=
  if n = "config" then some { st with path := v }
  else (setField n v st.flags).map (fun fl => { st with flags := fl })

/-- The derived environment-variable name: the namespace prefix prepended to
the upper-cased flag name (`EnvPrefix + strings.ToUpper(f.Name)`). -/
def envName (pre n : String) : String := pre ++ goToUpper n

/-- The function `env(f *flag.Flag)`: look the derived name up, and when the
result is non-empty write it through `flag.Set`; the error return of
`flag.Set` is discarded, exactly as in the source. -/
def envBind1 (envf : String → String) (pre n : String) (st : St) : St :=
  let v := envf (envName pre n)
  if v ≠ "" then (setFlag n v st).getD st else st

/-- `flag.VisitAll(env)`: visit every registered flag.  `VisitAll` visits in
lexicographical name order; each visit touches only the visited flag's own
storage, so the model visits the reserved `config` flag and then the fields in
registration order. -/
def envBindAll (envf : String → String) (pre : String) (st : St) : St :=
  (keysOf st.flags).foldl (fun s n => envBind1 envf pre n s) (envBind1 envf pre "config" st)

/-- The decoder's resolved writes: the JSON document as a list of assignments
to registered fields, in document order (the decoder's tag / exact-case /
case-insensitive name resolution is the collaborator's concern). -/
abbrev Doc := List (String × FlagValue)

/-- One decoded assignment: overwrite the first entry with the given name if
the kinds agree, report a decode error (`none`) on a kind mismatch, and ignore
the assignment when no field with that name exists. -/
def docWrite (n : String) (v : FlagValue) : List (String × FlagValue) → Option (List (String × FlagValue))
  | [] => some []
  | e :: rest =>
    if e.1 = n then (if kindOf e.2 = kindOf v then some ((e.1, v) :: rest) else none)
    else (docWrite n v rest).map (fun r => e :: r)

/-- All decoded assignments, in order (later duplicates of a key overwrite
earlier ones, as with `encoding/json`). -/
def applyDoc : Doc → List (String × FlagValue) → Option (List (String × FlagValue))
  | [], fl => some fl
  | e :: ds, fl => (docWrite e.1 e.2 fl).bind (applyDoc ds)

/-- The value the document assigns to a field, if any: the last assignment
wins. -/
def docVal (n : String) : Doc → Option FlagValue
  | [] => none
  | e :: ds =>
    match docVal n ds with
    | some w => some w
    | none => if e.1 = n then some e.2 else none

/-- Environment expansion of one stored value: only string storage is
affected, matching the string-leaf case of `expand`. -/
def expandFV (envf : String → String) : FlagValue → FlagValue
  | .s v => .s (expandEnv envf v)
  | w => w

/-- The `expand(reflect.ValueOf(c))` call at the end of `parseJSON`, acting on
the flat registered fields of the configuration struct (the path is not a
field of the struct and is not visited). -/
def expandFlags (envf : String → String) (fl : List (String × FlagValue)) :
    List (String × FlagValue) :=
  fl.map (fun e => (e.1, expandFV envf e.2))

/-- Fatal outcomes of `Parse` (each is a `panic` or, for the flag primitive,
its usage-exit behaviour). -/
inductive GoErr : Type where
  | docNotFound
  | docDecode
  | cliUsage
deriving DecidableEq, Repr

/-- The function `parseJSON(configPath, c)`: no-op on an empty path; otherwise
expand environment references in the path, resolve it through `absf`, open and
decode the file, and expand the decoded struct. -/
def parseJSONM (envf absf : String → String) (fsys : String → Option (Except Unit Doc))
    (st : St) : Except GoErr St :=
  if st.path = "" then .ok st
  else
    match fsys (absf (expandEnv envf st.path)) with
    | none => .error .docNotFound
    | some (.error _) => .error .docDecode
    | some (.ok d) =>
      match applyDoc d st.flags with
      | none => .error .docDecode
      | some fl => .ok { st with flags := expandFlags envf fl }

/-- The last CLI assignment to a flag name, if any (later command-line
occurrences of a flag overwrite earlier ones). -/
def lastAssign (n : String) : List (String × String) → Option String
  | [] => none
  | e :: rest =>
    match lastAssign n rest with
    | some w => some w
    | none => if e.1 = n then some e.2 else none

/-- The single `flag.Parse()` call: apply the primitive's extracted
assignments in order; an unknown flag or failed conversion is the primitive's
usage error. -/
def cliApply : List (String × String) → St → Except GoErr St
  | [], st => .ok st
  | e :: rest, st =>
    match setFlag e.1 e.2 st with
    | none => .error .cliUsage
    | some st2 => cliApply rest st2

/-- Decidable equality of `Except` results. -/
instance exceptDecEq {e a : Type} [DecidableEq e] [DecidableEq a] : DecidableEq (Except e a) :=
  fun x y =>
    match x, y with
    | .ok u, .ok v => decidable_of_iff (u = v) (by simp)
    | .error u, .error v => decidable_of_iff (u = v) (by simp)
    | .ok _, .error _ => isFalse (by simp)
    | .error _, .ok _ => isFalse (by simp)

/-- Events of one `Parse` call, in execution order. -/
inductive Ev : Type where
  | rawScan
  | docLoad
  | envBind
  | cliParse
deriving DecidableEq, Repr

/-- Result and event trace of one `Parse` call. -/
structure Outcome : Type where
  res : Except GoErr St
  trace : List Ev
deriving DecidableEq, Repr

/-- The function `Parse(c)`: raw-argument scan for the config path, document
load and expansion, environment binding over every registered flag, then the
single `flag.Parse()`.  `args` is `os.Args[1:]`; `cli` is the assignment list
the flag primitive extracts from the same arguments. -/
def ParseRun (args : List String) (cli : List (String × String)) (envf : String → String)
    (pre : String) (absf : String → String) (fsys : String → Option (Except Unit Doc))
    (st : St) : Outcome :=
  let st1 : St := { st with path := scanConfig args st.path }
  match parseJSONM envf absf fsys st1 with
  | .error e => ⟨.error e, [.rawScan, .docLoad]⟩
  | .ok st2 =>
    match cliApply cli (envBindAll envf pre st2) with
    | .error e => ⟨.error e, [.rawScan, .docLoad, .envBind, .cliParse]⟩
    | .ok st4 => ⟨.ok st4, [.rawScan, .docLoad, .envBind, .cliParse]⟩

/-- Result of one `Parse` call. -/
def ParseM (args : List String) (cli : List (String × String)) (envf : String → String)
    (pre : String) (absf : String → String) (fsys : String → Option (Except Unit Doc))
    (st : St) : Except GoErr St :=
  (ParseRun args cli envf pre absf fsys st).res

/-!
Lemmas about the registry operations, leading to a per-field characterisation
of `ParseM`.
-/

/-- A successful conversion yields a value of the requested kind. -/
theorem parseAs_kind {k : FlagKind} {v : String} {w : FlagValue} (h : parseAs k v = some w) :
    kindOf w = k := by
  cases k with
  | kstr =>
    simp [parseAs] at h
    subst h
    rfl
  | kint =>
    cases hx : parseIntGo v with
    | none => simp [parseAs, hx] at h
    | some x =>
      simp [parseAs, hx] at h
      subst h
      rfl
  | kbool =>
    cases hx : parseBoolGo v with
    | none => simp [parseAs, hx] at h
    | some x =>
      simp [parseAs, hx] at h
      subst h
      rfl

/-- `setValue` preserves the kind of the storage it writes. -/
theorem setValue_kind {cur : FlagValue} {v : String} {w : FlagValue}
    (h : setValue cur v = some w) : kindOf w = kindOf cur :=
  parseAs_kind h

/-- A found entry's name is among the keys. -/
theorem lookupF_some_mem {n : String} {fl : List (String × FlagValue)} {c : FlagValue}
    (h : lookupF n fl = some c) : n ∈ keysOf fl := by
  induction fl with
  | nil => simp [lookupF] at h
  | cons e rest ih =>
    by_cases he : e.1 = n
    · simp only [keysOf, List.map_cons, List.mem_cons]
      left
      exact he.symm
    · simp [lookupF, he] at h
      simp only [keysOf, List.map_cons, List.mem_cons]
      right
      exact ih h

/-- `setField` leaves every other field's storage unchanged. -/
theorem lookupF_setField_ne {n v : String} {fl fl' : List (String × FlagValue)}
    (h : setField n v fl = some fl') {m : String} (hm : m ≠ n) :
    lookupF m fl' = lookupF m fl := by
  induction fl generalizing fl' with
  | nil => simp [setField] at h
  | cons e rest ih =>
    by_cases he : e.1 = n
    · simp [setField, he, Option.map_eq_some'] at h
      obtain ⟨w, _, hfl⟩ := h
      subst hfl
      have hnm : ¬ n = m := fun hx => hm hx.symm
      simp [lookupF, he, hnm]
    · simp [setField, he, Option.map_eq_some'] at h
      obtain ⟨r, hr, hfl⟩ := h
      subst hfl
      by_cases hem : e.1 = m
      · simp [lookupF, hem]
      · simp [lookupF, hem, ih hr]

/-- A successful `setField` converted the old storage of the named field and
wrote the result there. -/
theorem lookupF_setField_self {n v : String} {fl fl' : List (String × FlagValue)}
    (h : setField n v fl = some fl') :
    ∃ cur w, lookupF n fl = some cur ∧ setValue cur v = some w ∧ lookupF n fl' = some w := by
  induction fl generalizing fl' with
  | nil => simp [setField] at h
  | cons e rest ih =>
    by_cases he : e.1 = n
    · simp [setField, he, Option.map_eq_some'] at h
      obtain ⟨w, hw, hfl⟩ := h
      subst hfl
      exact ⟨e.2, w, by simp [lookupF, he], hw, by simp [lookupF, he]⟩
    · simp [setField, he, Option.map_eq_some'] at h
      obtain ⟨r, hr, hfl⟩ := h
      subst hfl
      obtain ⟨cur, w, h1, h2, h3⟩ := ih hr
      exact ⟨cur, w, by simp [lookupF, he, h1], h2, by simp [lookupF, he, h3]⟩

/-- When the named field exists but the conversion fails, `setField` fails. -/
theorem setField_eq_none {n v : String} {fl : List (String × FlagValue)} {cur : FlagValue}
    (hcur : lookupF n fl = some cur) (hp : setValue cur v = none) :
    setField n v fl = none := by
  induction fl with
  | nil => simp [lookupF] at hcur
  | cons e rest ih =>
    by_cases he : e.1 = n
    · simp [lookupF, he] at hcur
      subst hcur
      simp [setField, he, hp]
    · simp [lookupF, he] at hcur
      simp [setField, he, ih hcur]

/-- When the named field exists and the conversion succeeds, `setField`
succeeds. -/
theorem setField_eq_some {n v : String} {fl : List (String × FlagValue)} {cur w : FlagValue}
    (hcur : lookupF n fl = some cur) (hp : setValue cur v = some w) :
    ∃ fl', setField n v fl = some fl' := by
  induction fl with
  | nil => simp [lookupF] at hcur
  | cons e rest ih =>
    by_cases he : e.1 = n
    · simp [lookupF, he] at hcur
      subst hcur
      exact ⟨(e.1, w) :: rest, by simp [setField, he, hp]⟩
    · simp [lookupF, he] at hcur
      obtain ⟨r, hr⟩ := ih hcur
      exact ⟨e :: r, by simp [setField, he, hr]⟩

/-- `setField` preserves the key list. -/
theorem setField_keys {n v : String} {fl fl' : List (String × FlagValue)}
    (h : setField n v fl = some fl') : keysOf fl' = keysOf fl := by
  induction fl generalizing fl' with
  | nil => simp [setField] at h
  | cons e rest ih =>
    by_cases he : e.1 = n
    · simp [setField, he, Option.map_eq_some'] at h
      obtain ⟨w, _, hfl⟩ := h
      subst hfl
      simp [keysOf, he]
    · simp [setField, he, Option.map_eq_some'] at h
      obtain ⟨r, hr, hfl⟩ := h
      subst hfl
      simp [keysOf] at ih ⊢
      exact ih hr

/-- `docWrite` leaves every other field's storage unchanged. -/
theorem docWrite_lookup_ne {m : String} {v : FlagValue} {fl fl' : List (String × FlagValue)}
    (h : docWrite m v fl = some fl') {n : String} (hn : n ≠ m) :
    lookupF n fl' = lookupF n fl := by
  induction fl generalizing fl' with
  | nil =>
    simp [docWrite] at h
    subst h
    rfl
  | cons e rest ih =>
    by_cases he : e.1 = m
    · by_cases hk : kindOf e.2 = kindOf v
      · simp [docWrite, he, hk] at h
        subst h
        have hmn : ¬ m = n := fun hx => hn hx.symm
        simp [lookupF, he, hmn]
      · simp [docWrite, he, hk] at h
    · simp [docWrite, he, Option.map_eq_some'] at h
      obtain ⟨r, hr, hfl⟩ := h
      subst hfl
      by_cases hem : e.1 = n
      · simp [lookupF, hem]
      · simp [lookupF, hem, ih hr]

/-- `docWrite` stores the document value at the named field when the field
exists, and changes nothing otherwise. -/
theorem docWrite_lookup_self {m : String} {v : FlagValue} {fl fl' : List (String × FlagValue)}
    (h : docWrite m v fl = some fl') :
    lookupF m fl' = if (lookupF m fl).isSome then some v else none := by
  induction fl generalizing fl' with
  | nil =>
    simp [docWrite] at h
    subst h
    simp [lookupF]
  | cons e rest ih =>
    by_cases he : e.1 = m
    · by_cases hk : kindOf e.2 = kindOf v
      · simp [docWrite, he, hk] at h
        subst h
        simp [lookupF, he]
      · simp [docWrite, he, hk] at h
    · simp [docWrite, he, Option.map_eq_some'] at h
      obtain ⟨r, hr, hfl⟩ := h
      subst hfl
      simp [lookupF, he, ih hr]

/-- A successfully written document value has the kind of the field it
overwrote. -/
theorem docWrite_kind_val {m : String} {v : FlagValue} {fl fl' : List (String × FlagValue)}
    (h : docWrite m v fl = some fl') {c : FlagValue} (hcur : lookupF m fl = some c) :
    kindOf v = kindOf c := by
  induction fl generalizing fl' with
  | nil => simp [lookupF] at hcur
  | cons e rest ih =>
    by_cases he : e.1 = m
    · by_cases hk : kindOf e.2 = kindOf v
      · simp [lookupF, he] at hcur
        rw [← hcur]
        exact hk.symm
      · simp [docWrite, he, hk] at h
    · simp [lookupF, he] at hcur
      simp [docWrite, he, Option.map_eq_some'] at h
      obtain ⟨r, hr, _⟩ := h
      exact ih hr hcur

/-- `docWrite` preserves the kind of every field's storage. -/
theorem docWrite_kind {m : String} {v : FlagValue} {fl fl' : List (String × FlagValue)}
    (h : docWrite m v fl = some fl') {n : String} {c : FlagValue}
    (hcur : lookupF n fl = some c) :
    ∃ c', lookupF n fl' = some c' ∧ kindOf c' = kindOf c := by
  by_cases hn : n = m
  · subst hn
    refine ⟨v, ?_, docWrite_kind_val h hcur⟩
    rw [docWrite_lookup_self h, hcur]
    simp
  · exact ⟨c, by rw [docWrite_lookup_ne h hn, hcur], rfl⟩

/-- `docWrite` preserves the key list. -/
theorem docWrite_keys {m : String} {v : FlagValue} {fl fl' : List (String × FlagValue)}
    (h : docWrite m v fl = some fl') : keysOf fl' = keysOf fl := by
  induction fl generalizing fl' with
  | nil =>
    simp [docWrite] at h
    subst h
    rfl
  | cons e rest ih =>
    by_cases he : e.1 = m
    · by_cases hk : kindOf e.2 = kindOf v
      · simp [docWrite, he, hk] at h
        subst h
        simp [keysOf, he]
      · simp [docWrite, he, hk] at h
    · simp [docWrite, he, Option.map_eq_some'] at h
      obtain ⟨r, hr, hfl⟩ := h
      subst hfl
      simp [keysOf] at ih ⊢
      exact ih hr

/-- `docWrite` preserves which fields exist. -/
theorem docWrite_lookup_isSome {m : String} {v : FlagValue} {fl fl' : List (String × FlagValue)}
    (h : docWrite m v fl = some fl') (n : String) :
    (lookupF n fl').isSome = (lookupF n fl).isSome := by
  by_cases hn : n = m
  · subst hn
    rw [docWrite_lookup_self h]
    by_cases hs : (lookupF n fl).isSome
    · simp [hs]
    · simp at hs
      simp [hs]
  · rw [docWrite_lookup_ne h hn]

/-- Per-field effect of decoding the whole document: the last document
assignment to an existing field wins; everything else is unchanged. -/
theorem applyDoc_lookup {d : Doc} {fl fl' : List (String × FlagValue)}
    (h : applyDoc d fl = some fl') (n : String) :
    lookupF n fl' =
      match docVal n d, lookupF n fl with
      | some v, some _ => some v
      | _, _ => lookupF n fl := by
  induction d generalizing fl with
  | nil =>
    simp [applyDoc] at h
    subst h
    cases hv : lookupF n fl <;> simp [docVal]
  | cons e ds ih =>
    simp [applyDoc, Option.bind_eq_some] at h
    obtain ⟨fl1, h1, h2⟩ := h
    have ihl := ih h2
    cases hds : docVal n ds with
    | some w =>
      have hdv : docVal n (e :: ds) = some w := by simp [docVal, hds]
      rw [hds] at ihl
      cases hv : lookupF n fl with
      | none =>
        have h1s : lookupF n fl1 = none := by
          have hs := docWrite_lookup_isSome h1 n
          rw [hv] at hs
          cases hq : lookupF n fl1 with
          | none => rfl
          | some c => rw [hq] at hs; simp at hs
        rw [h1s] at ihl
        simp at ihl
        rw [hdv]
        simpa using ihl
      | some c =>
        obtain ⟨c1, hc1, _⟩ := docWrite_kind h1 hv
        rw [hc1] at ihl
        simp at ihl
        rw [hdv]
        simpa using ihl
    | none =>
      have ihl2 : lookupF n fl' = lookupF n fl1 := by
        rw [hds] at ihl
        cases hv1 : lookupF n fl1 <;> rw [hv1] at ihl <;> simpa using ihl
      by_cases he : e.1 = n
      · subst he
        have hdv : docVal e.1 (e :: ds) = some e.2 := by simp [docVal, hds]
        rw [docWrite_lookup_self h1] at ihl2
        rw [hdv]
        cases hv : lookupF e.1 fl with
        | none =>
          rw [hv] at ihl2
          simp at ihl2
          simpa using ihl2
        | some c =>
          rw [hv] at ihl2
          simp at ihl2
          simpa using ihl2
      · have hne : n ≠ e.1 := fun hx => he hx.symm
        have hdv : docVal n (e :: ds) = none := by simp [docVal, hds, he]
        rw [docWrite_lookup_ne h1 hne] at ihl2
        rw [hdv]
        cases hv : lookupF n fl with
        | none =>
          rw [hv] at ihl2
          simpa using ihl2
        | some c =>
          rw [hv] at ihl2
          simpa using ihl2

/-- Decoding preserves the kind of every field's storage. -/
theorem applyDoc_kind {d : Doc} {fl fl' : List (String × FlagValue)}
    (h : applyDoc d fl = some fl') {n : String} {c : FlagValue}
    (hcur : lookupF n fl = some c) :
    ∃ c', lookupF n fl' = some c' ∧ kindOf c' = kindOf c := by
  induction d generalizing fl c with
  | nil =>
    simp [applyDoc] at h
    subst h
    exact ⟨c, hcur, rfl⟩
  | cons e ds ih =>
    simp [applyDoc, Option.bind_eq_some] at h
    obtain ⟨fl1, h1, h2⟩ := h
    obtain ⟨c1, hc1, hk1⟩ := docWrite_kind h1 hcur
    obtain ⟨c2, hc2, hk2⟩ := ih h2 hc1
    exact ⟨c2, hc2, by rw [hk2, hk1]⟩

/-- Decoding preserves the key list. -/
theorem applyDoc_keys {d : Doc} {fl fl' : List (String × FlagValue)}
    (h : applyDoc d fl = some fl') : keysOf fl' = keysOf fl := by
  induction d generalizing fl with
  | nil =>
    simp [applyDoc] at h
    subst h
    rfl
  | cons e ds ih =>
    simp [applyDoc, Option.bind_eq_some] at h
    obtain ⟨fl1, h1, h2⟩ := h
    rw [ih h2, docWrite_keys h1]

/-- Per-field effect of the struct expansion. -/
theorem lookupF_expandFlags (envf : String → String) (n : String)
    (fl : List (String × FlagValue)) :
    lookupF n (expandFlags envf fl) = (lookupF n fl).map (expandFV envf) := by
  induction fl with
  | nil => simp [expandFlags, lookupF]
  | cons e rest ih =>
    by_cases he : e.1 = n
    · simp [expandFlags, lookupF, he]
    · simp [expandFlags, lookupF, he] at ih ⊢
      exact ih

/-- The struct expansion preserves the key list. -/
theorem keysOf_expandFlags (envf : String → String) (fl : List (String × FlagValue)) :
    keysOf (expandFlags envf fl) = keysOf fl := by
  simp [keysOf, expandFlags]

/-- Expansion preserves the kind of a stored value. -/
theorem kindOf_expandFV (envf : String → String) (w : FlagValue) :
    kindOf (expandFV envf w) = kindOf w := by
  cases w <;> rfl

/-- What the environment binder leaves in one field's storage: the converted
environment value when the derived variable is non-empty and converts, the
previous value otherwise. -/
def envStep (envf : String → String) (pre n : String) (cur : FlagValue) : FlagValue :=
  if envf (envName pre n) = "" then cur
  else (setValue cur (envf (envName pre n))).getD cur

/-- `envStep` preserves the kind. -/
theorem kindOf_envStep (envf : String → String) (pre n : String) (cur : FlagValue) :
    kindOf (envStep envf pre n cur) = kindOf cur := by
  unfold envStep
  by_cases he : envf (envName pre n) = ""
  · simp [he]
  · simp [he]
    cases hs : setValue cur (envf (envName pre n)) with
    | none => simp
    | some w => simp [setValue_kind hs]

/-- Visiting one flag leaves every other field's storage unchanged. -/
theorem envBind1_lookup_ne (envf : String → String) (pre m : String) (st : St)
    {n : String} (hm : m ≠ n) :
    lookupF n (envBind1 envf pre m st).flags = lookupF n st.flags := by
  unfold envBind1
  by_cases he : envf (envName pre m) = ""
  · simp [he]
  · simp [he]
    unfold setFlag
    by_cases hconf : m = "config"
    · simp [hconf]
    · simp [hconf]
      cases hs : setField m (envf (envName pre m)) st.flags with
      | none => simp
      | some fl' =>
        simp
        exact lookupF_setField_ne hs (fun hx => hm hx.symm)

/-- Visiting a field applies `envStep` to its storage. -/
theorem envBind1_lookup_self (envf : String → String) (pre : String) {n : String}
    (hn : n ≠ "config") (st : St) {cur : FlagValue}
    (hcur : lookupF n st.flags = some cur) :
    lookupF n (envBind1 envf pre n st).flags = some (envStep envf pre n cur) := by
  unfold envBind1 envStep
  by_cases he : envf (envName pre n) = ""
  · simp [he, hcur]
  · simp [he]
    unfold setFlag
    simp [hn]
    cases hs : setValue cur (envf (envName pre n)) with
    | none =>
      rw [setField_eq_none hcur hs]
      simp [hcur]
    | some w =>
      obtain ⟨fl', hfl⟩ := setField_eq_some hcur hs
      obtain ⟨cur2, w2, hc2, hw2, hl2⟩ := lookupF_setField_self hfl
      rw [hcur] at hc2
      have hcc : cur = cur2 := by injection hc2
      subst hcc
      rw [hs] at hw2
      have hww : w = w2 := by injection hw2
      subst hww
      rw [hfl]
      simpa using hl2

/-- Visiting a non-`config` flag leaves the path unchanged. -/
theorem envBind1_path_ne (envf : String → String) (pre m : String) (st : St)
    (hm : m ≠ "config") :
    (envBind1 envf pre m st).path = st.path := by
  unfold envBind1
  by_cases he : envf (envName pre m) = ""
  · simp [he]
  · simp [he]
    unfold setFlag
    simp [hm]

/-- Visiting the reserved `config` flag overwrites the path when the derived
variable is non-empty. -/
theorem envBind1_path_config (envf : String → String) (pre : String) (st : St) :
    (envBind1 envf pre "config" st).path =
      if envf (envName pre "config") = "" then st.path
      else envf (envName pre "config") := by
  unfold envBind1
  by_cases he : envf (envName pre "config") = ""
  · simp [he]
  · simp [he, setFlag]

/-- Visiting the reserved `config` flag leaves field storage unchanged. -/
theorem envBind1_flags_config (envf : String → String) (pre : String) (st : St) :
    (envBind1 envf pre "config" st).flags = st.flags := by
  unfold envBind1
  by_cases he : envf (envName pre "config") = ""
  · simp [he]
  · simp [he, setFlag]

/-- Visiting one flag preserves the key list. -/
theorem envBind1_keys (envf : String → String) (pre m : String) (st : St) :
    keysOf (envBind1 envf pre m st).flags = keysOf st.flags := by
  unfold envBind1
  by_cases he : envf (envName pre m) = ""
  · simp [he]
  · simp [he]
    unfold setFlag
    by_cases hconf : m = "config"
    · simp [hconf]
    · simp [hconf]
      cases hs : setField m (envf (envName pre m)) st.flags with
      | none => simp
      | some fl' =>
        simp
        exact setField_keys hs

/-- Folding the binder over names not containing `n` leaves `n`'s storage
unchanged. -/
theorem foldl_envBind_lookup_notmem (envf : String → String) (pre : String) {n : String} :
    ∀ (ns : List String) (st : St), n ∉ ns →
      lookupF n ((ns.foldl (fun s m => envBind1 envf pre m s) st)).flags =
        lookupF n st.flags := by
  intro ns
  induction ns with
  | nil => intro st _; rfl
  | cons m ms ih =>
    intro st hmem
    have hm : m ≠ n := fun hx => hmem (by rw [hx]; exact List.mem_cons_self n ms)
    have hms : n ∉ ms := fun hx => hmem (List.mem_cons_of_mem m hx)
    simp only [List.foldl_cons]
    rw [ih _ hms, envBind1_lookup_ne envf pre m st hm]

/-- Folding the binder over non-`config` names leaves the path unchanged. -/
theorem foldl_envBind_path (envf : String → String) (pre : String) :
    ∀ (ns : List String) (st : St), "config" ∉ ns →
      ((ns.foldl (fun s m => envBind1 envf pre m s) st)).path = st.path := by
  intro ns
  induction ns with
  | nil => intro st _; rfl
  | cons m ms ih =>
    intro st hmem
    have hm : m ≠ "config" := fun hx => hmem (by rw [hx]; exact List.mem_cons_self "config" ms)
    have hms : "config" ∉ ms := fun hx => hmem (List.mem_cons_of_mem m hx)
    simp only [List.foldl_cons]
    rw [ih _ hms, envBind1_path_ne envf pre m st hm]

/-- Per-field effect of the whole environment-binding pass. -/
theorem envBindAll_lookup (envf : String → String) (pre : String) (st : St) {n : String}
    (hnd : (keysOf st.flags).Nodup)
    (hn : n ≠ "config") {cur : FlagValue} (hcur : lookupF n st.flags = some cur) :
    lookupF n (envBindAll envf pre st).flags = some (envStep envf pre n cur) := by
  unfold envBindAll
  have hmem : n ∈ keysOf st.flags := lookupF_some_mem hcur
  obtain ⟨L1, L2, hL⟩ := List.append_of_mem hmem
  rw [hL]
  rw [hL] at hnd
  have hnd2 := List.nodup_append.mp hnd
  have hn1 : n ∉ L1 := fun hx => (List.disjoint_left.mp hnd2.2.2) hx (List.mem_cons_self n L2)
  have hn2 : n ∉ L2 := (List.nodup_cons.mp hnd2.2.1).1
  rw [List.foldl_append]
  simp only [List.foldl_cons]
  rw [foldl_envBind_lookup_notmem envf pre L2 _ hn2]
  set stA := L1.foldl (fun s m => envBind1 envf pre m s) (envBind1 envf pre "config" st) with hA
  have hcurA : lookupF n stA.flags = some cur := by
    rw [hA, foldl_envBind_lookup_notmem envf pre L1 _ hn1]
    rw [envBind1_flags_config]
    exact hcur
  exact envBind1_lookup_self envf pre hn stA hcurA

/-- Path effect of the whole environment-binding pass: the derived
`{prefix}CONFIG` variable overwrites the path when non-empty. -/
theorem envBindAll_path (envf : String → String) (pre : String) (st : St)
    (hc : "config" ∉ keysOf st.flags) :
    (envBindAll envf pre st).path =
      if envf (envName pre "config") = "" then st.path
      else envf (envName pre "config") := by
  unfold envBindAll
  rw [foldl_envBind_path envf pre _ _ hc]
  exact envBind1_path_config envf pre st

/-- Path effect of the single CLI application: the last `config` assignment
wins; with none, the path is untouched. -/
theorem cliApply_path {cli : List (String × String)} {st st' : St}
    (h : cliApply cli st = .ok st') :
    st'.path = (lastAssign "config" cli).getD st.path := by
  induction cli generalizing st with
  | nil =>
    simp [cliApply] at h
    subst h
    simp [lastAssign]
  | cons e rest ih =>
    simp only [cliApply] at h
    cases hs : setFlag e.1 e.2 st with
    | none =>
      rw [hs] at h
      exact absurd h (by simp)
    | some st2 =>
      rw [hs] at h
      have ihp := ih h
      have hpath : st2.path = if e.1 = "config" then e.2 else st.path := by
        unfold setFlag at hs
        by_cases he : e.1 = "config"
        · simp [he] at hs
          rw [← hs]
          simp [he]
        · simp [he] at hs
          obtain ⟨fl2, _, hfl⟩ := hs
          rw [← hfl]
          simp [he]
      cases hl : lastAssign "config" rest with
      | some w =>
        rw [hl] at ihp
        simp at ihp
        simp [lastAssign, hl]
        exact ihp
      | none =>
        rw [hl] at ihp
        simp at ihp
        simp [lastAssign, hl]
        by_cases he : e.1 = "config"
        · simp [he]
          rw [ihp, hpath, if_pos he]
        · simp [he]
          rw [ihp, hpath, if_neg he]

/-- Per-field effect of the single CLI application: the last assignment to the
field is converted and stored; fields never assigned keep their value. -/
theorem cliApply_lookup {cli : List (String × String)} {st st' : St}
    (h : cliApply cli st = .ok st') {n : String} (hn : n ≠ "config") {cur : FlagValue}
    (hcur : lookupF n st.flags = some cur) :
    lookupF n st'.flags =
      match lastAssign n cli with
      | some v => parseAs (kindOf cur) v
      | none => some cur := by
  induction cli generalizing st cur with
  | nil =>
    simp [cliApply] at h
    subst h
    simp [lastAssign, hcur]
  | cons e rest ih =>
    simp only [cliApply] at h
    cases hs : setFlag e.1 e.2 st with
    | none =>
      rw [hs] at h
      exact absurd h (by simp)
    | some st2 =>
      rw [hs] at h
      by_cases he : e.1 = "config"
      · have hfl : st2.flags = st.flags := by
          unfold setFlag at hs
          simp [he] at hs
          rw [← hs]
        have ihh := ih h (by rw [hfl]; exact hcur)
        have hen : ¬ e.1 = n := by
          rw [he]
          exact fun hx => hn hx.symm
        cases hl : lastAssign n rest with
        | some w =>
          rw [hl] at ihh
          simp [lastAssign, hl]
          exact ihh
        | none =>
          rw [hl] at ihh
          simp [lastAssign, hl, hen]
          exact ihh
      · unfold setFlag at hs
        simp [he] at hs
        obtain ⟨fl2, hsf, hst2⟩ := hs
        by_cases hee : e.1 = n
        · subst hee
          obtain ⟨cur0, w, hc0, hw0, hl0⟩ := lookupF_setField_self hsf
          rw [hcur] at hc0
          have hcc : cur = cur0 := by injection hc0
          subst hcc
          have ihh := ih h (show lookupF e.1 st2.flags = some w by
            rw [← hst2]
            simpa using hl0)
          have hkw : kindOf w = kindOf cur := setValue_kind hw0
          cases hl : lastAssign e.1 rest with
          | some v =>
            rw [hl] at ihh
            simp [lastAssign, hl]
            rw [ihh, hkw]
          | none =>
            rw [hl] at ihh
            simp [lastAssign, hl]
            rw [ihh]
            unfold setValue at hw0
            exact hw0.symm
        · have hluk : lookupF n st2.flags = some cur := by
            rw [← hst2]
            have := lookupF_setField_ne hsf (fun hx => hee hx.symm)
            simpa using this.trans hcur
          have ihh := ih h hluk
          cases hl : lastAssign n rest with
          | some w =>
            rw [hl] at ihh
            simp [lastAssign, hl]
            exact ihh
          | none =>
            rw [hl] at ihh
            simp [lastAssign, hl, hee]
            exact ihh

/-- The document that a `Parse` call starting from path `p` effectively
decodes: none when the path is empty or the file is missing or undecodable. -/
def effDoc (envf absf : String → String) (fsys : String → Option (Except Unit Doc))
    (p : String) : Option Doc :=
  if p = "" then none
  else
    match fsys (absf (expandEnv envf p)) with
    | some (.ok d) => some d
    | _ => none

/-- The value the claimed precedence assigns to a registered field: the
converted last CLI assignment if the field was set on the command line,
otherwise the converted environment value if the derived variable is set
non-empty (and converts), otherwise the document value — expanded, as is the
compiled-in default — when a document was loaded, otherwise the default. -/
def highestWins (envf : String → String) (pre n : String) (d : FlagValue)
    (docLoaded : Bool) (docv : Option FlagValue) (cliv : Option String) : Option FlagValue :=
  match cliv with
  | some v => parseAs (kindOf d) v
  | none =>
    match (if envf (envName pre n) = "" then none
           else parseAs (kindOf d) (envf (envName pre n))) with
    | some ev => some ev
    | none => some (if docLoaded then expandFV envf (docv.getD d) else d)

/-- Bridge between the operational post-state of a field and the declarative
`highestWins` value. -/
theorem highestWins_eq (envf : String → String) (pre n : String) (d : FlagValue)
    (docLoaded : Bool) (docv : Option FlagValue) (cliv : Option String) (base : FlagValue)
    (hbase : base = if docLoaded then expandFV envf (docv.getD d) else d)
    (hkb : kindOf base = kindOf d) :
    (match cliv with
     | some v => parseAs (kindOf (envStep envf pre n base)) v
     | none => some (envStep envf pre n base)) =
      highestWins envf pre n d docLoaded docv cliv := by
  cases cliv with
  | some v =>
    simp [highestWins]
    rw [kindOf_envStep, hkb]
  | none =>
    simp only [highestWins]
    unfold envStep
    by_cases he : envf (envName pre n) = ""
    · simp [he, hbase]
    · have h2 : setValue base (envf (envName pre n)) =
          parseAs (kindOf d) (envf (envName pre n)) := by
        unfold setValue
        rw [hkb]
      rw [if_neg he, h2]
      cases hp : parseAs (kindOf d) (envf (envName pre n)) with
      | some ev => simp [he, hp]
      | none => simp [he, hp, hbase]

/-- Per-field characterisation of a completed `Parse` call: every registered
field (other than the reserved `config` flag) ends at its `highestWins`
value. -/
theorem ParseM_lookup (args : List String) (cli : List (String × String))
    (envf : String → String) (pre : String) (absf : String → String)
    (fsys : String → Option (Except Unit Doc)) (st0 stF : St) (n : String) (d : FlagValue)
    (hnd : (keysOf st0.flags).Nodup)
    (hn : n ≠ "config") (hd : lookupF n st0.flags = some d)
    (hres : ParseM args cli envf pre absf fsys st0 = .ok stF) :
    lookupF n stF.flags =
      highestWins envf pre n d
        (effDoc envf absf fsys (scanConfig args st0.path)).isSome
        ((effDoc envf absf fsys (scanConfig args st0.path)).bind (docVal n))
        (lastAssign n cli) := by
  cases hpj : parseJSONM envf absf fsys { st0 with path := scanConfig args st0.path } with
  | error e =>
    have hPM : ParseM args cli envf pre absf fsys st0 = .error e := by
      simp only [ParseM, ParseRun, hpj]
    rw [hPM] at hres
    exact absurd hres (by simp)
  | ok st2 =>
    cases hca : cliApply cli (envBindAll envf pre st2) with
    | error e =>
      have hPM : ParseM args cli envf pre absf fsys st0 = .error e := by
        simp only [ParseM, ParseRun, hpj, hca]
      rw [hPM] at hres
      exact absurd hres (by simp)
    | ok st4 =>
      have hPM : ParseM args cli envf pre absf fsys st0 = .ok st4 := by
        simp only [ParseM, ParseRun, hpj, hca]
      rw [hPM] at hres
      have hstF : st4 = stF := by
        injection hres
      subst hstF
      by_cases hp : scanConfig args st0.path = ""
      · have hst2 : st2 = { path := "", flags := st0.flags } := by
          unfold parseJSONM at hpj
          simp [hp] at hpj
          exact hpj.symm
        have hcur2 : lookupF n st2.flags = some d := by rw [hst2]; exact hd
        have hnd2 : (keysOf st2.flags).Nodup := by rw [hst2]; exact hnd
        have h3 := envBindAll_lookup envf pre st2 hnd2 hn hcur2
        have h4 := cliApply_lookup hca hn h3
        rw [h4]
        have heff : effDoc envf absf fsys (scanConfig args st0.path) = none := by
          simp [effDoc, hp]
        rw [heff]
        exact highestWins_eq envf pre n d false none (lastAssign n cli) d (by simp) rfl
      · unfold parseJSONM at hpj
        simp only [hp, if_neg, if_false] at hpj
        cases hfs : fsys (absf (expandEnv envf (scanConfig args st0.path))) with
        | none =>
          rw [hfs] at hpj
          simp at hpj
        | some dr =>
          rw [hfs] at hpj
          cases dr with
          | error u =>
            simp at hpj
          | ok doc =>
            simp only at hpj
            cases had : applyDoc doc st0.flags with
            | none =>
              rw [had] at hpj
              simp at hpj
            | some fl2 =>
              rw [had] at hpj
              simp at hpj
              have heff : effDoc envf absf fsys (scanConfig args st0.path) = some doc := by
                simp [effDoc, hp, hfs]
              have hcur1 : lookupF n fl2 = some ((docVal n doc).getD d) := by
                have := applyDoc_lookup had n
                rw [hd] at this
                cases hdv : docVal n doc with
                | some v => rw [hdv] at this; simpa using this
                | none => rw [hdv] at this; simpa using this
              have hkind1 : kindOf ((docVal n doc).getD d) = kindOf d := by
                obtain ⟨c1, hc1, hkc1⟩ := applyDoc_kind had hd
                rw [hcur1] at hc1
                have : (docVal n doc).getD d = c1 := by injection hc1
                rw [this]
                exact hkc1
              have hcur2 : lookupF n st2.flags =
                  some (expandFV envf ((docVal n doc).getD d)) := by
                rw [← hpj]
                simp only
                rw [lookupF_expandFlags, hcur1]
                rfl
              have hnd2 : (keysOf st2.flags).Nodup := by
                rw [← hpj]
                simp only
                rw [keysOf_expandFlags, applyDoc_keys had]
                exact hnd
              have h3 := envBindAll_lookup envf pre st2 hnd2 hn hcur2
              have h4 := cliApply_lookup hca hn h3
              rw [h4, heff]
              refine highestWins_eq envf pre n d true (docVal n doc) (lastAssign n cli)
                (expandFV envf ((docVal n doc).getD d)) (by simp) ?_
              rw [kindOf_expandFV]
              exact hkind1

/-- Keys of the registry survive a successful document load. -/
theorem parseJSONM_keys {envf absf : String → String}
    {fsys : String → Option (Except Unit Doc)} {st st2 : St}
    (h : parseJSONM envf absf fsys st = .ok st2) :
    keysOf st2.flags = keysOf st.flags := by
  unfold parseJSONM at h
  by_cases hp : st.path = ""
  · simp [hp] at h
    subst h
    rfl
  · rw [if_neg hp] at h
    cases hfs : fsys (absf (expandEnv envf st.path)) with
    | none =>
      rw [hfs] at h
      simp at h
    | some dr =>
      rw [hfs] at h
      cases dr with
      | error u => simp at h
      | ok doc =>
        simp only at h
        cases had : applyDoc doc st.flags with
        | none =>
          rw [had] at h
          simp at h
        | some fl2 =>
          rw [had] at h
          simp at h
          rw [← h]
          simp only
          rw [keysOf_expandFlags, applyDoc_keys had]

/-!
The claims.
-/

/-- Concrete environment: `FLAG1=envVal`. -/
def envC1 : String → String := fun x => if x = "FLAG1" then "envVal" else ""

/-- Concrete file system: a document assigning `jsonVal` to `flag1` at path
`cfg`. -/
def fsysC1 : String → Option (Except Unit Doc) :=
  fun p => if p = "cfg" then some (.ok [("flag1", FlagValue.s "jsonVal")]) else none

/-- Concrete initial state for the precedence witness. -/
def stC1 : St := ⟨"cfg", [("flag1", FlagValue.s "defaultFlag1")]⟩

/-- Claim C1: after `Parse(configObject)` returns, every registered field
holds the value from the highest-ranked source that set it, under the
precedence CLI > Environment > Document > Default (`highestWins`): the
converted last CLI assignment when the command line sets the field; otherwise
the converted environment value when the derived variable is non-empty (and
converts); otherwise the document value — environment-expanded, as is the
compiled-in default — when a document was loaded; otherwise the default.  In
particular a field set by both document and environment ends at the
environment value, and a field additionally set on the command line ends at
the CLI value. -/
theorem Parse_precedence (args : List String) (cli : List (String × String))
    (envf : String → String) (pre : String) (absf : String → String)
    (fsys : String → Option (Except Unit Doc)) (st0 stF : St) (n : String) (d : FlagValue)
    (hnd : (keysOf st0.flags).Nodup)
    (hn : n ≠ "config") (hd : lookupF n st0.flags = some d)
    (hres : ParseM args cli envf pre absf fsys st0 = .ok stF) :
    lookupF n stF.flags =
      highestWins envf pre n d
        (effDoc envf absf fsys (scanConfig args st0.path)).isSome
        ((effDoc envf absf fsys (scanConfig args st0.path)).bind (docVal n))
        (lastAssign n cli) :=
  ParseM_lookup args cli envf pre absf fsys st0 stF n d hnd hn hd hres

/-- Witness for claim C1: a field with a default, a document value, an
environment value and a CLI assignment. -/
theorem Parse_precedence_witness :
    lookupF "flag1" (St.mk "cfg" [("flag1", FlagValue.s "cliVal")]).flags =
      highestWins envC1 "" "flag1" (FlagValue.s "defaultFlag1")
        (effDoc envC1 id fsysC1 (scanConfig [] "cfg")).isSome
        ((effDoc envC1 id fsysC1 (scanConfig [] "cfg")).bind (docVal "flag1"))
        (lastAssign "flag1" [("flag1", "cliVal")]) :=
  Parse_precedence [] [("flag1", "cliVal")] envC1 "" id fsysC1 stC1
    (St.mk "cfg" [("flag1", FlagValue.s "cliVal")]) "flag1" (FlagValue.s "defaultFlag1")
    (by decide) (by decide) (by decide) (by decide)

/-- Claim C2: every `Parse` call performs its steps in the fixed order — raw
argument scan, document load and expansion, environment binding, CLI flag
application — and invokes the flag primitive at most once on any call and
exactly once (as the last step) on every call that returns; path discovery is
the raw scan, which precedes the single flag-primitive invocation in the
trace. -/
theorem Parse_steps_order (args : List String) (cli : List (String × String))
    (envf : String → String) (pre : String) (absf : String → String)
    (fsys : String → Option (Except Unit Doc)) (st : St) :
    ((ParseRun args cli envf pre absf fsys st).trace.count Ev.cliParse ≤ 1) ∧
      (∀ stF, (ParseRun args cli envf pre absf fsys st).res = .ok stF →
        (ParseRun args cli envf pre absf fsys st).trace =
          [Ev.rawScan, Ev.docLoad, Ev.envBind, Ev.cliParse]) := by
  cases hpj : parseJSONM envf absf fsys { st with path := scanConfig args st.path } with
  | error e =>
    have ht : (ParseRun args cli envf pre absf fsys st).trace = [Ev.rawScan, Ev.docLoad] := by
      simp only [ParseRun, hpj]
    have hr : (ParseRun args cli envf pre absf fsys st).res = .error e := by
      simp only [ParseRun, hpj]
    constructor
    · rw [ht]
      decide
    · intro stF h
      rw [hr] at h
      simp at h
  | ok st2 =>
    cases hca : cliApply cli (envBindAll envf pre st2) with
    | error e2 =>
      have ht : (ParseRun args cli envf pre absf fsys st).trace =
          [Ev.rawScan, Ev.docLoad, Ev.envBind, Ev.cliParse] := by
        simp only [ParseRun, hpj, hca]
      have hr : (ParseRun args cli envf pre absf fsys st).res = .error e2 := by
        simp only [ParseRun, hpj, hca]
      constructor
      · rw [ht]
        decide
      · intro stF h
        exact ht
    | ok st4 =>
      have ht : (ParseRun args cli envf pre absf fsys st).trace =
          [Ev.rawScan, Ev.docLoad, Ev.envBind, Ev.cliParse] := by
        simp only [ParseRun, hpj, hca]
      constructor
      · rw [ht]
        decide
      · intro stF h
        exact ht

/-- Always-unset concrete environment. -/
def envNone : String → String := fun _ => ""

/-- Concrete file system with no files. -/
def fsysNone : String → Option (Except Unit Doc) := fun _ => none

/-- Witness for claim C2: a completed call's trace is the fixed sequence. -/
theorem Parse_steps_order_witness :
    (ParseRun [] [] envNone "" id fsysNone (St.mk "" [])).trace =
      [Ev.rawScan, Ev.docLoad, Ev.envBind, Ev.cliParse] :=
  (Parse_steps_order [] [] envNone "" id fsysNone (St.mk "" [])).2
    (St.mk "" []) (by decide)

/-- Concrete environment: `FLAG6=abc`, not convertible to an int. -/
def envAbc : String → String := fun x => if x = "FLAG6" then "abc" else ""

/-- Claim C3 finding: with the int flag `flag6` bound and `FLAG6=abc` set —
non-empty and not convertible — `Parse` returns normally and leaves the field
unchanged; the error returned by `flag.Set` inside `env` is discarded, so the
claimed fatal `EnvironmentTypeConversionError` abort never happens. -/
theorem env_conversion_failure_ignored :
    ParseM [] [] envAbc "" id fsysNone (St.mk "" [("flag6", FlagValue.i 1)]) =
      .ok (St.mk "" [("flag6", FlagValue.i 1)]) ∧
      envAbc (envName "" "flag6") = "abc" ∧
      parseAs FlagKind.kint "abc" = none :=
  ⟨by decide, by decide, by decide⟩

/-- Claim C7 counterexample: with an empty resolved path the document step is
skipped entirely, and with it the expansion pass — `Parse` completes with the
registered default `$FLAG7` still unexpanded in the bound storage, although
its expansion against the live environment would be `FLAG7VALUE`. -/
theorem defaults_not_expanded_without_doc :
    ParseM [] [] envSample "" id fsysNone (St.mk "" [("flag9", FlagValue.s "$FLAG7")]) =
      .ok (St.mk "" [("flag9", FlagValue.s "$FLAG7")]) ∧
      expandEnv envSample "$FLAG7" = "FLAG7VALUE" ∧
      ("$FLAG7" : String) ≠ "FLAG7VALUE" :=
  ⟨by decide, by decide, by decide⟩

/-- Claim C7 amended: environment references inside any string value of the
configuration object — including CLI default values written into bound storage
at registration — are expanded against the live environment by `Parse` for
every field not overridden by a higher-precedence source, whenever the
document step actually runs (the resolved path is non-empty and the document
loads); with an empty resolved path the expansion pass is skipped. -/
theorem defaults_expanded_when_doc_loaded (args : List String)
    (cli : List (String × String)) (envf : String → String) (pre : String)
    (absf : String → String) (fsys : String → Option (Except Unit Doc)) (st0 stF : St)
    (n : String) (s0 : String) (doc : Doc)
    (hnd : (keysOf st0.flags).Nodup) (hn : n ≠ "config")
    (hd : lookupF n st0.flags = some (FlagValue.s s0))
    (hres : ParseM args cli envf pre absf fsys st0 = .ok stF)
    (hp : scanConfig args st0.path ≠ "")
    (hfs : fsys (absf (expandEnv envf (scanConfig args st0.path))) = some (.ok doc))
    (hdoc : docVal n doc = none)
    (henv : envf (envName pre n) = "")
    (hcli : lastAssign n cli = none) :
    lookupF n stF.flags = some (FlagValue.s (expandEnv envf s0)) := by
  have h := ParseM_lookup args cli envf pre absf fsys st0 stF n (FlagValue.s s0) hnd hn hd hres
  rw [h]
  have heff : effDoc envf absf fsys (scanConfig args st0.path) = some doc := by
    simp [effDoc, hp, hfs]
  rw [heff]
  simp [highestWins, hcli, hdoc, henv, expandFV]

/-- Concrete file system: an empty document at path `cfg`. -/
def fsysEmptyDoc : String → Option (Except Unit Doc) :=
  fun p => if p = "cfg" then some (.ok []) else none

/-- Witness for the amended claim C7: a `$FLAG7` default expands once a
document (even an empty one) is loaded. -/
theorem defaults_expanded_when_doc_loaded_witness :
    lookupF "flag9" (St.mk "cfg" [("flag9", FlagValue.s "FLAG7VALUE")]).flags =
      some (FlagValue.s (expandEnv envSample "$FLAG7")) :=
  defaults_expanded_when_doc_loaded [] [] envSample "" id fsysEmptyDoc
    (St.mk "cfg" [("flag9", FlagValue.s "$FLAG7")])
    (St.mk "cfg" [("flag9", FlagValue.s "FLAG7VALUE")])
    "flag9" "$FLAG7" []
    (by decide) (by decide) (by decide) (by decide) (by decide) (by decide)
    (by decide) (by decide) (by decide)

/-- Claim C8 counterexample: for the int field `flag6` with the derived
variable `FLAG6` present and non-empty (`abc`), the binder overwrites
nothing — the whole state is unchanged — refuting the claimed "overwrites if
and only if present with a non-empty value". -/
theorem envBind_nonempty_no_overwrite :
    envBindAll envAbc "" (St.mk "p" [("flag6", FlagValue.i 1)]) =
      St.mk "p" [("flag6", FlagValue.i 1)] ∧
      envAbc (envName "" "flag6") = "abc" ∧
      ("abc" : String) ≠ "" :=
  ⟨by decide, by decide, by decide⟩

/-- Claim C8 amended: for every registered field the binder looks up the
variable named by prepending the namespace prefix to the upper-cased
registered name, and overwrites the bound storage if and only if that variable
is non-empty and its value converts to the field's declared kind (string
fields always convert); an empty value never overwrites, and a non-empty
non-convertible value is silently dropped. -/
theorem envBind_overwrite_characterisation (envf : String → String) (pre : String)
    (st : St) (n : String) (cur : FlagValue)
    (hnd : (keysOf st.flags).Nodup) (hn : n ≠ "config")
    (hcur : lookupF n st.flags = some cur) :
    lookupF n (envBindAll envf pre st).flags =
      some (match (if envf (pre ++ goToUpper n) = "" then none
                   else parseAs (kindOf cur) (envf (pre ++ goToUpper n))) with
            | some w => w
            | none => cur) := by
  rw [envBindAll_lookup envf pre st hnd hn hcur]
  unfold envStep envName setValue
  by_cases he : envf (pre ++ goToUpper n) = ""
  · simp [he]
  · simp [he]
    cases hp : parseAs (kindOf cur) (envf (pre ++ goToUpper n)) <;> simp [hp]

/-- Concrete environment: `JSONFLAG_FLAG10=FLAG10VALUE`. -/
def envPFX : String → String :=
  fun x => if x = "JSONFLAG_FLAG10" then "FLAG10VALUE" else ""

/-- Witness for the amended claim C8: with prefix `JSONFLAG_` the field
`flag10` reads `JSONFLAG_FLAG10` and is overwritten. -/
theorem envBind_overwrite_characterisation_witness :
    lookupF "flag10"
        (envBindAll envPFX "JSONFLAG_" (St.mk "p" [("flag10", FlagValue.s "")])).flags =
      some (match (if envPFX ("JSONFLAG_" ++ goToUpper "flag10") = "" then none
                   else parseAs (kindOf (FlagValue.s ""))
                     (envPFX ("JSONFLAG_" ++ goToUpper "flag10"))) with
            | some w => w
            | none => FlagValue.s "") :=
  envBind_overwrite_characterisation envPFX "JSONFLAG_"
    (St.mk "p" [("flag10", FlagValue.s "")]) "flag10" (FlagValue.s "")
    (by decide) (by decide) (by decide)

/-- Claim C9: the document loader is a no-op (not an error) on an empty path;
on a non-empty path the path is environment-expanded and resolved through
`absf`, a missing file is the fatal `docNotFound`, an undecodable file or a
kind-mismatched assignment is the fatal `docDecode`, a decodable file is
applied and expanded; and a whole `Parse` call whose resolved path names a
missing file (for example `--config=missing.json`) aborts with
`docNotFound`. -/
theorem docLoader_noop_or_fatal (envf absf : String → String)
    (fsys : String → Option (Except Unit Doc)) (st : St) :
    (st.path = "" → parseJSONM envf absf fsys st = .ok st) ∧
      (st.path ≠ "" → fsys (absf (expandEnv envf st.path)) = none →
        parseJSONM envf absf fsys st = .error .docNotFound) ∧
      (st.path ≠ "" → fsys (absf (expandEnv envf st.path)) = some (.error ()) →
        parseJSONM envf absf fsys st = .error .docDecode) ∧
      (∀ doc fl2, st.path ≠ "" → fsys (absf (expandEnv envf st.path)) = some (.ok doc) →
        applyDoc doc st.flags = some fl2 →
        parseJSONM envf absf fsys st = .ok { st with flags := expandFlags envf fl2 }) ∧
      (∀ args cli pre, scanConfig args st.path ≠ "" →
        fsys (absf (expandEnv envf (scanConfig args st.path))) = none →
        ParseM args cli envf pre absf fsys st = .error .docNotFound) := by
  refine ⟨?_, ?_, ?_, ?_, ?_⟩
  · intro hp
    simp [parseJSONM, hp]
  · intro hp hfs
    simp [parseJSONM, hp, hfs]
  · intro hp hfs
    simp [parseJSONM, hp, hfs]
  · intro doc fl2 hp hfs had
    simp [parseJSONM, hp, hfs, had]
  · intro args cli pre hp hfs
    have h1 : parseJSONM envf absf fsys { st with path := scanConfig args st.path } =
        .error .docNotFound := by
      simp [parseJSONM, hp, hfs]
    simp only [ParseM, ParseRun, h1]

/-- Witness for claim C9: `--config=missing.json` makes `Parse` abort with the
document-not-found error. -/
theorem docLoader_noop_or_fatal_witness :
    ParseM ["--config=missing.json"] [] envNone "" id fsysNone (St.mk "config.json5" []) =
      .error .docNotFound :=
  (docLoader_noop_or_fatal envNone id fsysNone (St.mk "config.json5" [])).2.2.2.2
    ["--config=missing.json"] [] "" (by decide) (by decide)

/-- Concrete environment: `CONFIG=envp`. -/
def envCfg : String → String := fun x => if x = "CONFIG" then "envp" else ""

/-- Concrete file system: an empty document at path `clip`. -/
def fsysClip : String → Option (Except Unit Doc) :=
  fun p => if p = "clip" then some (.ok []) else none

/-- Claim C10 counterexample: with `CONFIG=envp` set non-empty and a CLI
`--config=clip`, the environment binder's overwrite of the path does not reach
any subsequent `Parse` call — the final flag application rewrites the path
with the CLI value, so `Parse` ends with path `clip`, not `envp`. -/
theorem envConfig_overwrite_clobbered_by_cli :
    ParseM ["--config=clip"] [("config", "clip")] envCfg "" id fsysClip
        (St.mk "config.json5" []) =
      .ok (St.mk "clip" []) ∧
      envCfg (envName "" "config") = "envp" ∧
      ("envp" : String) ≠ "clip" :=
  ⟨by decide, by decide, by decide⟩

/-- Claim C10 amended: the environment-binding pass of every `Parse` call also
visits the reserved `config` flag; the document is loaded before that visit
(from the raw-scan path, as the decomposition shows), so the overwrite never
changes which document the current call loaded, and when additionally the CLI
carries no `config` assignment the non-empty `{PREFIX}CONFIG` value is the
path `Parse` ends with — the path any subsequent `Parse` call starts from. -/
theorem envConfig_path_after_parse (args : List String) (cli : List (String × String))
    (envf : String → String) (pre : String) (absf : String → String)
    (fsys : String → Option (Except Unit Doc)) (st0 stF : St) (e : String)
    (hc : "config" ∉ keysOf st0.flags)
    (he : envf (envName pre "config") = e) (hne : e ≠ "")
    (hcli : lastAssign "config" cli = none)
    (hres : ParseM args cli envf pre absf fsys st0 = .ok stF) :
    stF.path = e ∧
      ∃ st2, parseJSONM envf absf fsys { st0 with path := scanConfig args st0.path } =
          .ok st2 ∧
        cliApply cli (envBindAll envf pre st2) = .ok stF := by
  cases hpj : parseJSONM envf absf fsys { st0 with path := scanConfig args st0.path } with
  | error er =>
    have hPM : ParseM args cli envf pre absf fsys st0 = .error er := by
      simp only [ParseM, ParseRun, hpj]
    rw [hPM] at hres
    exact absurd hres (by simp)
  | ok st2 =>
    cases hca : cliApply cli (envBindAll envf pre st2) with
    | error er =>
      have hPM : ParseM args cli envf pre absf fsys st0 = .error er := by
        simp only [ParseM, ParseRun, hpj, hca]
      rw [hPM] at hres
      exact absurd hres (by simp)
    | ok st4 =>
      have hPM : ParseM args cli envf pre absf fsys st0 = .ok st4 := by
        simp only [ParseM, ParseRun, hpj, hca]
      rw [hPM] at hres
      have hstF : st4 = stF := by injection hres
      subst hstF
      refine ⟨?_, st2, rfl, hca⟩
      have hp1 := cliApply_path hca
      rw [hcli] at hp1
      simp at hp1
      have hc2 : "config" ∉ keysOf st2.flags := by
        rw [parseJSONM_keys hpj]
        exact hc
      have hp2 := envBindAll_path envf pre st2 hc2
      rw [he, if_neg hne] at hp2
      rw [hp1, hp2]

/-- Concrete file system: an empty document at path `c0`. -/
def fsysC10 : String → Option (Except Unit Doc) :=
  fun p => if p = "c0" then some (.ok []) else none

/-- Witness for the amended claim C10: with no CLI `config` assignment the
final path is the environment value. -/
theorem envConfig_path_after_parse_witness :
    (St.mk "envp" []).path = "envp" ∧
      ∃ st2, parseJSONM envCfg id fsysC10
          { St.mk "c0" ([] : List (String × FlagValue)) with
              path := scanConfig [] (St.mk "c0" []).path } = .ok st2 ∧
        cliApply [] (envBindAll envCfg "" st2) = .ok (St.mk "envp" []) :=
  envConfig_path_after_parse [] [] envCfg "" id fsysC10 (St.mk "c0" [])
    (St.mk "envp" []) "envp"
    (by decide) (by decide) (by decide) (by decide) (by decide)

end Jsonflag
